import Mathlib

/-!
Verification development for the dashboard backend (`src/dashboard/app.py`).

Python strings are embedded as `List Char` (`Str`).  Python's text-mode file
reading uses universal newlines, modelled by `translateNL`.  The program uses
two distinct line-splitting disciplines and the model keeps them apart:
iteration over a text file (`for line in f`, the read path of
`_parse_env_file`) yields pieces separated by `\n` only, modelled by
`pySplitlines`; `f.read().splitlines()` (the line load of
`api_envfile_update`) additionally breaks on the `str.splitlines` terminators
`\v`, `\f`, `\x1c`, `\x1d`, `\x1e`, `\x85`, U+2028 and U+2029, modelled by
`pyStrSplitlines`.  Python's default `str.strip()` whitespace set is modelled
by the ASCII whitespace characters.
-/

set_option maxHeartbeats 1000000

abbrev Str := List Char

/-- Coerce a Lean string literal to the `Str` embedding of Python strings. -/
def str (s : String) : Str := s.data

/-- ASCII whitespace, the effective character class of Python `str.strip()`
for the inputs in this development. -/
def isPySpace (c : Char) : Bool :=
  c = ' ' || c = '\t' || c = '\n' || c = '\x0d' || c = '\x0b' || c = '\x0c'

/-- Python `str.lstrip()`. -/
def lstripWs (cs : Str) : Str := cs.dropWhile isPySpace

/-- Python `str.rstrip()`. -/
def rstripWs (cs : Str) : Str := (cs.reverse.dropWhile isPySpace).reverse

/-- Python `str.strip()`. -/
def stripWs (cs : Str) : Str := lstripWs (rstripWs cs)

/-- Python `str.rstrip("/")`. -/
def rstripSlash (cs : Str) : Str := (cs.reverse.dropWhile (· = '/')).reverse

/-- Python `sep in s` for a one-character separator. -/
def hasChar (c : Char) (cs : Str) : Bool := cs.any (· = c)

/-- Python `s.split(sep)` for a one-character separator. -/
def splitOnChar (sep : Char) : Str → List Str
  | [] => [[]]
  | c :: cs =>
    match splitOnChar sep cs with
    | [] => if c = sep then [[], []] else [[c]]
    | h :: t => if c = sep then [] :: h :: t else (c :: h) :: t

/-- Python `s.split(sep, 1)` for a one-character separator: `some (a, b)`
when the separator occurs (`a` before the first occurrence, `b` after),
`none` otherwise. -/
def breakOnChar (sep : Char) : Str → Option (Str × Str)
  | [] => none
  | c :: cs =>
    if c = sep then some ([], cs)
    else (breakOnChar sep cs).map (fun p => (c :: p.1, p.2))

/-- Universal-newline translation performed by Python text-mode reads:
`\r\n` and `\r` become `\n`. -/
def translateNL : Str → Str
  | [] => []
  | '\x0d' :: '\n' :: cs => '\n' :: translateNL cs
  | '\x0d' :: cs => '\n' :: translateNL cs
  | c :: cs => c :: translateNL cs

/-- The lines a Python program sees when iterating over a text-mode file
(`for line in f`) with the trailing `\n` removed from each line: universal-
newline translation followed by splitting on `\n` (the read discipline of
`_parse_env_file`). -/
def pySplitlines (cs : Str) : List Str :=
  let l := splitOnChar '\n' (translateNL cs)
  if l.getLast? = some [] then l.dropLast else l

/-- The characters `str.splitlines` breaks on in a string produced by a
text-mode `f.read()` (universal-newline translation has already removed
`\r`): `\n` plus the terminators `\v` (`\x0b`), `\f` (`\x0c`), `\x1c`,
`\x1d`, `\x1e`, `\x85`, U+2028 and U+2029. -/
def isLineBreak (c : Char) : Bool :=
  c = '\n' || c = '\x0b' || c = '\x0c' || c = '\x1c' || c = '\x1d' ||
  c = '\x1e' || c = '\x85' || c = '\u2028' || c = '\u2029'

/-- Splitting on the full `str.splitlines` terminator set. -/
def splitOnBreak : Str → List Str
  | [] => [[]]
  | c :: cs =>
    match splitOnBreak cs with
    | [] => if isLineBreak c then [[], []] else [[c]]
    | h :: t => if isLineBreak c then [] :: h :: t else (c :: h) :: t

/-- Python `f.read().splitlines()` (the line load of `api_envfile_update`):
universal-newline translation followed by `str.splitlines`, which breaks on
the full terminator set `isLineBreak` and yields no trailing empty piece. -/
def pyStrSplitlines (cs : Str) : List Str :=
  let l := splitOnBreak (translateNL cs)
  if l.getLast? = some [] then l.dropLast else l

/-- Python `"\n".join(lines)`. -/
def joinNL : List Str → Str
  | [] => []
  | [l] => l
  | l :: ls => l ++ '\n' :: joinNL ls

/-- Python `str.lower()` (ASCII letters; the inputs of interest are ASCII). -/
def toLowerStr (cs : Str) : Str := cs.map Char.toLower

/-- Python `s[-n:]`. -/
def takeLast (n : Nat) (cs : Str) : Str := cs.drop (cs.length - n)

/-- `true` when the string contains neither `\n` nor `\r`. -/
def noNL (cs : Str) : Bool := !(hasChar '\n' cs) && !(hasChar '\x0d' cs)

/-- Lookup in the embedding of a Python `dict` as an association list. -/
def dictGet {α : Type} (d : List (Str × α)) (k : Str) : Option α :=
  (d.find? (fun p => p.1 == k)).map (·.2)

/-- Python `d[k] = v`: overwrite the binding in place if the key is present
(insertion order is preserved), otherwise append a new binding. -/
def dictSet {α : Type} (d : List (Str × α)) (k : Str) (v : α) : List (Str × α) :=
  if d.any (fun p => p.1 == k) then d.map (fun p => if p.1 == k then (k, v) else p)
  else d ++ [(k, v)]

/-- Result of one external command invocation (`runCmd`): exit code and the
captured output channels. -/
structure ProcessResult where
  returncode : Int
  stdout : Str
  stderr : Str
deriving DecidableEq, Repr

/-- The possible outcomes of `subprocess.run` as observed by `runCmd`'s
`try` block: normal completion, `subprocess.TimeoutExpired` (with the partial
output captured on the exception object), or `FileNotFoundError` (with the
exception's message). -/
inductive SubprocOutcome where
  | completed (returncode : Int) (stdout stderr : Str)
  | timedOut (stdout stderr : Option Str)
  | notFound (msg : Str)

/-- The stderr message `runCmd` synthesizes on timeout:
`f"Command timed out after {timeout}s"`. -/
def timeoutMsg (t : Nat) : Str :=
  str "Command timed out after " ++ str (toString t) ++ str "s"

/-- Python `a or b` on an optional string: `b` when `a` is `None` or empty. -/
def pyOrElse (o : Option Str) (d : Str) : Str :=
  match o with
  | some s => if s = [] then d else s
  | none => d

/-- `run_cmd(args, timeout, extra_env)`, as a function of the outcome of the
underlying `subprocess.run` call. -/
def runCmd (timeout : Nat) (outcome : SubprocOutcome) : ProcessResult :=
  match outcome with
  | .completed rc out err => ⟨rc, stripWs out, stripWs err⟩
  | .timedOut out err =>
      ⟨124, stripWs (pyOrElse out []), stripWs (pyOrElse err (timeoutMsg timeout))⟩
  | .notFound m => ⟨127, [], m⟩

/-- Python `list.index(x)`: position of the first occurrence. -/
def indexOfStr (x : Str) : List Str → Nat
  | [] => 0
  | a :: as => if a = x then 0 else indexOfStr x as + 1

/-- `name_from_prefix(prefix)`: derive an environment name from its
filesystem path. -/
def nameFromPrefix (pfx : Str) : Str :=
  let parts := splitOnChar '/' (rstripSlash pfx)
  if (str "envs") ∈ parts ∧ indexOfStr (str "envs") parts + 1 < parts.length then
    parts.getD (indexOfStr (str "envs") parts + 1) []
  else if (str "miniconda3").isSuffixOf pfx ∨ (str "anaconda3").isSuffixOf pfx then
    str "base"
  else parts.getLastD []

/-- A scoped service identifier parsed from the `SERVICES` setting. -/
structure ServiceSpec where
  scope : Str
  name : Str
deriving DecidableEq, Repr

/-- `parse_services_config()`, as a function of the raw `SERVICES` string. -/
def parse_services_config (services : Str) : List ServiceSpec :=
  let raw := stripWs services
  if raw = [] then []
  else
    (splitOnChar ',' raw).foldl
      (fun acc item0 =>
        let item := stripWs item0
        if item = [] then acc
        else
          match breakOnChar ':' item with
          | some p =>
              acc ++ [⟨if stripWs p.1 = [] then str "user" else stripWs p.1, stripWs p.2⟩]
          | none => acc ++ [⟨str "user", item⟩])
      []

/-- The argv built by `systemctl_cmd(scope, args)`. -/
def systemctl_argv (scope : Str) (args : List Str) : List Str :=
  str "systemctl" :: (if scope = str "user" then [str "--user"] else []) ++ args

/-- A service's live status as reported by `service_status`. -/
structure ServiceStatus where
  scope : Str
  name : Str
  status : Str
deriving DecidableEq, Repr

/-- `service_status(scope, name)`, as a function of an oracle giving each
invoked argv's `runCmd` result. -/
def service_status (oracle : List Str → ProcessResult) (scope nm : Str) : ServiceStatus :=
  let r := oracle (systemctl_argv scope [str "is-active", nm])
  let status :=
    if r.returncode = 0 then r.stdout
    else if r.stdout ≠ [] then r.stdout
    else if r.stderr ≠ [] then r.stderr
    else str "unknown"
  ⟨scope, nm, status⟩

/-- Response of the `api_service_action` endpoint: a validation error (HTTP
400) or the outcome of the systemctl invocation plus a post-action status. -/
inductive ActionResponse where
  | invalidScope
  | invalidAction
  | done (ok : Bool) (returncode : Int) (stdout stderr : Str) (status : ServiceStatus)
deriving DecidableEq, Repr

/-- `api_service_action(scope, name, action)`.  The first component of the
result is the trace of external argvs actually invoked, in order; a
validation error is returned before any invocation, so its trace is empty. -/
def api_service_action (oracle : List Str → ProcessResult) (scope nm action : Str) :
    List (List Str) × ActionResponse :=
  let scope := toLowerStr scope
  if scope ≠ str "user" ∧ scope ≠ str "system" then ([], .invalidScope)
  else if action ≠ str "start" ∧ action ≠ str "stop" ∧ action ≠ str "restart" then
    ([], .invalidAction)
  else
    let argv1 := systemctl_argv scope [action, nm]
    let r := oracle argv1
    let st := service_status oracle scope nm
    ([argv1, systemctl_argv scope [str "is-active", nm]],
     .done (if r.returncode = 0 then true else false) r.returncode
       (takeLast 4000 r.stdout) (takeLast 4000 r.stderr) st)

/-- The line classifier shared by `_parse_env_file` and the key-index scan of
`api_envfile_update`: a line yields a binding unless it is empty, is a
comment (`#` after left-trim), or has no `=`; otherwise it is split at the
first `=` and both sides are stripped. -/
def lineKV (l : Str) : Option (Str × Str) :=
  if l = [] then none
  else if (lstripWs l).head? = some '#' then none
  else
    match breakOnChar '=' l with
    | none => none
    | some p => some (stripWs p.1, stripWs p.2)

/-- The mapping `_parse_env_file` builds from a sequence of lines (last
occurrence of a duplicate key wins). -/
def parse_env_lines (ls : List Str) : List (Str × Str) :=
  ls.foldl (fun d l =>
    match lineKV l with
    | some p => dictSet d p.1 p.2
    | none => d) []

/-- `_parse_env_file(path)` applied to the contents of an existing file. -/
def parse_env_file (content : Str) : List (Str × Str) :=
  parse_env_lines (pySplitlines content)

/-- The unquoted-safe character class of `_needs_quotes`: ASCII letters and
digits plus underscore, period, hyphen, forward slash and colon. -/
def safeChar (c : Char) : Bool :=
  c.isAlphanum || c = '_' || c = '.' || c = '-' || c = '/' || c = ':'

/-- `_needs_quotes(val)`: quote unless every character is unquoted-safe
(the empty value matches the regex and needs no quotes). -/
def needs_quotes (v : Str) : Bool := !(v.all safeChar)

/-- Python `s.replace(c, r)` for a one-character pattern. -/
def replaceChar (c : Char) (r : Str) (cs : Str) : Str :=
  cs.flatMap (fun x => if x = c then r else [x])

/-- `_serialize_val(val)`: emit verbatim when safe, else wrap in double
quotes, escaping backslash and double-quote (in that order, as the source's
two `replace` calls do). -/
def serialize_val (v : Str) : Str :=
  if needs_quotes v then
    '"' :: replaceChar '"' (str "\\\"") (replaceChar '\\' (str "\\\\") v) ++ ['"']
  else v

/-- The `norm_bool_str` helper of `api_envfile_update`. -/
def norm_bool_str (v : Str) : Str :=
  if toLowerStr (stripWs v) ∈ [str "1", str "true", str "yes", str "on"] then str "true"
  else str "false"

/-- The `editable_keys` whitelist of `api_envfile_update`. -/
def editable_keys : List Str :=
  [str "PORT", str "BIND_HOST", str "SERVICES", str "MASK_SECRETS",
   str "ACTION_TOKEN", str "SECRET_KEY", str "MINICONDA_CONDA",
   str "COMFYUI_DASHBOARD_DIR", str "models_location"]

/-- The masked placeholder (`"••••••••"`) that must never be persisted. -/
def mask_placeholder : Str := str "••••••••"

/-- The index from key to line position built by `api_envfile_update`
(`key_index`), scanning lines exactly as the read path does. -/
def buildKeyIndexAux : Nat → List Str → List (Str × Nat) → List (Str × Nat)
  | _, [], d => d
  | i, l :: ls, d =>
    buildKeyIndexAux (i + 1) ls
      (match lineKV l with
       | some p => dictSet d p.1 i
       | none => d)

/-- `key_index` of `api_envfile_update`. -/
def build_key_index (ls : List Str) : List (Str × Nat) :=
  buildKeyIndexAux 0 ls []

/-- In-memory state of the update loop of `api_envfile_update`. -/
structure UpdState where
  lines : List Str
  applied : List Str
  restart : Bool
deriving DecidableEq, Repr

/-- One iteration of the update loop of `api_envfile_update` over a
`(raw_key, raw_value)` pair. -/
def apply_one (current : List (Str × Str)) (env : Str → Option Str)
    (keyIndex : List (Str × Nat)) (st : UpdState) (u : Str × Str) : UpdState :=
  let k := stripWs u.1
  if k ∉ editable_keys then st
  else
    let v := if k = str "MASK_SECRETS" then norm_bool_str u.2 else u.2
    if (k = str "ACTION_TOKEN" ∨ k = str "SECRET_KEY") ∧
        (stripWs v = [] ∨ stripWs v = mask_placeholder) then st
    else
      let old_v := (dictGet current k).orElse (fun _ => env k)
      let restart :=
        if (k = str "PORT" ∨ k = str "BIND_HOST") ∧ old_v.getD [] ≠ v then true
        else st.restart
      let newLine := k ++ str "=" ++ serialize_val v
      match dictGet keyIndex k with
      | some i => ⟨st.lines.set i newLine, st.applied ++ [k], restart⟩
      | none => ⟨st.lines ++ [newLine], st.applied ++ [k], restart⟩

/-- The content written back by `api_envfile_update`:
`"\n".join(lines).rstrip() + "\n"`. -/
def render_lines (ls : List Str) : Str := rstripWs (joinNL ls) ++ str "\n"

/-- Result of the `api_envfile_update` endpoint.  `newFile` is the final
content of the config file when the endpoint wrote it (`none` means the file
was not touched). -/
structure EnvfileResult where
  ok : Bool
  updated : List Str
  restartRequired : Bool
  newFile : Option Str
deriving DecidableEq, Repr

/-- `api_envfile_update()` on a well-formed `updates` payload, as a function
of the current filesystem state (whether `.env` and `.env.example` exist and
their contents), the process environment (`os.getenv`), and the update pairs
in the payload mapping's insertion order.  I/O exceptions are outside the
model. -/
def api_envfile_update (fileExists : Bool) (fileContent : Str)
    (exampleExists : Bool) (exampleContent : Str) (env : Str → Option Str)
    (updates : List (Str × Str)) : EnvfileResult :=
  let current := if fileExists then parse_env_file fileContent else []
  let lines :=
    if fileExists then pyStrSplitlines fileContent
    else if exampleExists then pyStrSplitlines exampleContent
    else []
  let keyIndex := build_key_index lines
  let st := updates.foldl (apply_one current env keyIndex) ⟨lines, [], false⟩
  if st.applied = [] then
    if ¬fileExists ∧ exampleExists then
      let bootContent := rstripWs (translateNL exampleContent) ++ str "\n"
      let applied2 := (parse_env_file bootContent).map (·.1)
      if applied2 = [] then ⟨true, [], false, some bootContent⟩
      else ⟨true, applied2, st.restart, some (render_lines st.lines)⟩
    else ⟨true, [], false, none⟩
  else ⟨true, st.applied, st.restart, some (render_lines st.lines)⟩

lemma dropWhile_idem (p : Char → Bool) (l : Str) :
    (l.dropWhile p).dropWhile p = l.dropWhile p := by
  induction l with
  | nil => simp
  | cons c cs ih =>
    by_cases h : p c
    · simpa [List.dropWhile_cons, h] using ih
    · simp [List.dropWhile_cons, h]

lemma dropWhile_eq_self_of_head (p : Char → Bool) (l : Str)
    (h : ∀ c ∈ l.head?, p c = false) : l.dropWhile p = l := by
  cases l with
  | nil => rfl
  | cons c cs => simp [List.dropWhile_cons, h c (by simp)]

lemma head_false_of_dropWhile_eq_self (p : Char → Bool) (l : Str)
    (h : l.dropWhile p = l) : ∀ c ∈ l.head?, p c = false := by
  rw [List.dropWhile_eq_self_iff] at h
  cases l with
  | nil => simp
  | cons c cs =>
    intro x hx
    simp at hx
    subst hx
    simpa using h (by simp)

lemma rstripWs_idem (l : Str) : rstripWs (rstripWs l) = rstripWs l := by
  simp [rstripWs, dropWhile_idem]

lemma lstripWs_idem (l : Str) : lstripWs (lstripWs l) = lstripWs l := by
  simp [lstripWs, dropWhile_idem]

lemma rstripWs_eq_self_of_getLast (l : Str)
    (h : ∀ c ∈ l.getLast?, isPySpace c = false) : rstripWs l = l := by
  have : l.reverse.dropWhile isPySpace = l.reverse := by
    apply dropWhile_eq_self_of_head
    intro c hc
    exact h c (by simpa using hc)
  simp [rstripWs, this]

lemma getLast_false_of_rstripWs_eq_self (l : Str) (h : rstripWs l = l) :
    ∀ c ∈ l.getLast?, isPySpace c = false := by
  intro c hc
  have h' : l.reverse.dropWhile isPySpace = l.reverse := by
    have := congrArg List.reverse h
    simpa [rstripWs] using this
  exact head_false_of_dropWhile_eq_self _ _ h' c (by simpa using hc)

lemma rstripWs_lstripWs_of_rstrip (l : Str) (h : rstripWs l = l) :
    rstripWs (lstripWs l) = lstripWs l := by
  rcases eq_or_ne (lstripWs l) [] with hnil | hne
  · rw [hnil]; rfl
  · apply rstripWs_eq_self_of_getLast
    have hsuff : ∃ t, t ++ lstripWs l = l :=
      ⟨l.takeWhile isPySpace, List.takeWhile_append_dropWhile isPySpace l⟩
    obtain ⟨t, ht⟩ := hsuff
    have hlast : (lstripWs l).getLast? = l.getLast? := by
      conv_rhs => rw [← ht]
      exact (List.getLast?_append_of_ne_nil t hne).symm
    rw [hlast]
    exact getLast_false_of_rstripWs_eq_self l h

lemma stripWs_idem (l : Str) : stripWs (stripWs l) = stripWs l := by
  unfold stripWs
  rw [rstripWs_lstripWs_of_rstrip (rstripWs l) (rstripWs_idem l), lstripWs_idem]

/-- C5: for every timeout and every outcome of the underlying process
launch, `run_cmd` returns a `ProcessResult` and never raises: normal
completion returns the exit code with both captured channels trimmed; on
timeout expiry it returns exit code 124 with the trimmed partial output and
a synthesized stderr message when none was produced; on a failure to locate
or launch the executable it returns exit code 127 with empty stdout and the
lookup-failure message as stderr.  The captured channels of the completed
and timed-out cases are trimmed of leading and trailing whitespace. -/
theorem c5_runCmd_total (t : Nat) (rc : Int) (out err : Str) (po pe : Option Str) (m : Str) :
    runCmd t (.completed rc out err) = ⟨rc, stripWs out, stripWs err⟩ ∧
    runCmd t (.timedOut po pe) =
      ⟨124, stripWs (pyOrElse po []), stripWs (pyOrElse pe (timeoutMsg t))⟩ ∧
    runCmd t (.notFound m) = ⟨127, [], m⟩ ∧
    stripWs (runCmd t (.completed rc out err)).stdout = (runCmd t (.completed rc out err)).stdout ∧
    stripWs (runCmd t (.completed rc out err)).stderr = (runCmd t (.completed rc out err)).stderr ∧
    stripWs (runCmd t (.timedOut po pe)).stdout = (runCmd t (.timedOut po pe)).stdout ∧
    stripWs (runCmd t (.timedOut po pe)).stderr = (runCmd t (.timedOut po pe)).stderr :=
  ⟨rfl, rfl, rfl, stripWs_idem out, stripWs_idem err, stripWs_idem _, stripWs_idem _⟩

/-- C6, counterexample: when the status query exits nonzero with nonempty
stdout `"inactive"` and nonempty stderr `"boom"`, `service_status` reports
the stdout text, not the stderr text the claim prescribes. -/
theorem c6_counterexample :
    (service_status (fun _ => ⟨1, str "inactive", str "boom"⟩) (str "user")
        (str "x.service")).status = str "inactive" ∧
    str "inactive" ≠ str "boom" ∧ str "inactive" ≠ [] := by
  refine ⟨by decide, by decide, by decide⟩

/-- C6 (amended): `service_status` never fails the caller; its status field
is the stdout word when the query exits zero, and on nonzero exit it falls
back to the stdout text if nonempty, else to the stderr text if nonempty,
else to the string `"unknown"`. -/
theorem c6_service_status_fallback (oracle : List Str → ProcessResult)
    (scope nm : Str) (rc : Int) (out err : Str)
    (h : oracle (systemctl_argv scope [str "is-active", nm]) = ⟨rc, out, err⟩) :
    (service_status oracle scope nm).scope = scope ∧
    (service_status oracle scope nm).name = nm ∧
    (service_status oracle scope nm).status =
      (if rc = 0 then out else if out ≠ [] then out else if err ≠ [] then err
       else str "unknown") := by
  simp [service_status, h]

/-- Witness for `c6_service_status_fallback` at a concrete failing query
with no output: the fallback status is `"unknown"`. -/
theorem c6_witness :
    (service_status (fun _ => ⟨3, [], []⟩) (str "user") (str "x.service")).scope = str "user" ∧
    (service_status (fun _ => ⟨3, [], []⟩) (str "user") (str "x.service")).name = str "x.service" ∧
    (service_status (fun _ => ⟨3, [], []⟩) (str "user") (str "x.service")).status =
      (if (3 : Int) = 0 then [] else if ([] : Str) ≠ [] then [] else if ([] : Str) ≠ [] then []
       else str "unknown") :=
  c6_service_status_fallback (fun _ => ⟨3, [], []⟩) (str "user") (str "x.service") 3 [] [] rfl

/-- C7, counterexample: the scope `"USER"` is not literally one of
`{user, system}`, yet `api_service_action` does not return a validation
error: it lower-cases the scope first and proceeds to invoke the service
manager (its invocation trace is nonempty). -/
theorem c7_counterexample :
    (str "USER" ≠ str "user" ∧ str "USER" ≠ str "system") ∧
    (api_service_action (fun _ => ⟨0, str "active", []⟩) (str "USER") (str "foo.service")
        (str "start")).1 ≠ [] ∧
    (api_service_action (fun _ => ⟨0, str "active", []⟩) (str "USER") (str "foo.service")
        (str "start")).2 ≠ .invalidScope ∧
    (api_service_action (fun _ => ⟨0, str "active", []⟩) (str "USER") (str "foo.service")
        (str "start")).2 ≠ .invalidAction := by
  refine ⟨by decide, by decide, by decide, by decide⟩

/-- C7 (amended): `api_service_action` returns a validation error before
invoking any external process (its invocation trace is empty) whenever the
action is not exactly one of start/stop/restart or the lower-cased scope is
not one of user/system; otherwise it invokes the service manager once and,
whether that invocation succeeds or fails, returns an outcome carrying a
freshly re-queried post-action `service_status`. -/
theorem c7_api_service_action_validation (oracle : List Str → ProcessResult)
    (scope nm action : Str) :
    (¬(toLowerStr scope = str "user" ∨ toLowerStr scope = str "system") →
      api_service_action oracle scope nm action = ([], .invalidScope)) ∧
    ((toLowerStr scope = str "user" ∨ toLowerStr scope = str "system") →
      ¬(action = str "start" ∨ action = str "stop" ∨ action = str "restart") →
      api_service_action oracle scope nm action = ([], .invalidAction)) ∧
    ((toLowerStr scope = str "user" ∨ toLowerStr scope = str "system") →
      (action = str "start" ∨ action = str "stop" ∨ action = str "restart") →
      api_service_action oracle scope nm action =
        ([systemctl_argv (toLowerStr scope) [action, nm],
          systemctl_argv (toLowerStr scope) [str "is-active", nm]],
         .done (if (oracle (systemctl_argv (toLowerStr scope) [action, nm])).returncode = 0
                then true else false)
           (oracle (systemctl_argv (toLowerStr scope) [action, nm])).returncode
           (takeLast 4000 (oracle (systemctl_argv (toLowerStr scope) [action, nm])).stdout)
           (takeLast 4000 (oracle (systemctl_argv (toLowerStr scope) [action, nm])).stderr)
           (service_status oracle (toLowerStr scope) nm))) := by
  unfold api_service_action
  refine ⟨fun h => ?_, fun h1 h2 => ?_, fun h1 h2 => ?_⟩
  · rw [if_pos]
    push_neg at h
    exact h
  · rw [if_neg, if_pos]
    · push_neg at h2
      exact h2
    · simp only [not_and_or, not_not]
      exact h1
  · rw [if_neg, if_neg]
    · simp only [not_and_or, not_not]
      exact h2
    · simp only [not_and_or, not_not]
      exact h1

/-- Witness for `c7_api_service_action_validation`: a valid system-scope
start on a failing service manager still yields a post-action status. -/
theorem c7_witness :
    (toLowerStr (str "system") = str "user" ∨ toLowerStr (str "system") = str "system") ∧
    (str "start" = str "start" ∨ str "start" = str "stop" ∨ str "start" = str "restart") ∧
    api_service_action (fun _ => ⟨1, [], str "fail"⟩) (str "system") (str "foo.service")
        (str "start") =
      ([systemctl_argv (toLowerStr (str "system")) [str "start", str "foo.service"],
        systemctl_argv (toLowerStr (str "system")) [str "is-active", str "foo.service"]],
       .done (if ((fun (_ : List Str) => (⟨1, [], str "fail"⟩ : ProcessResult))
                    (systemctl_argv (toLowerStr (str "system"))
                      [str "start", str "foo.service"])).returncode = 0 then true else false)
         ((fun (_ : List Str) => (⟨1, [], str "fail"⟩ : ProcessResult))
            (systemctl_argv (toLowerStr (str "system"))
              [str "start", str "foo.service"])).returncode
         (takeLast 4000 ((fun (_ : List Str) => (⟨1, [], str "fail"⟩ : ProcessResult))
            (systemctl_argv (toLowerStr (str "system"))
              [str "start", str "foo.service"])).stdout)
         (takeLast 4000 ((fun (_ : List Str) => (⟨1, [], str "fail"⟩ : ProcessResult))
            (systemctl_argv (toLowerStr (str "system"))
              [str "start", str "foo.service"])).stderr)
         (service_status (fun _ => ⟨1, [], str "fail"⟩) (toLowerStr (str "system"))
            (str "foo.service"))) :=
  ⟨by decide, by decide,
    (c7_api_service_action_validation (fun _ => ⟨1, [], str "fail"⟩) (str "system")
      (str "foo.service") (str "start")).2.2 (by decide) (by decide)⟩

lemma indexOfStr_append_not_mem (x : Str) (a b : List Str) (h : x ∉ a) :
    indexOfStr x (a ++ x :: b) = a.length := by
  induction a with
  | nil => simp [indexOfStr]
  | cons c cs ih =>
    have hc : c ≠ x := by
      intro hcx
      exact h (by simp [hcx])
    have hcs : x ∉ cs := fun hm => h (by simp [hm])
    simp [indexOfStr, hc, ih hcs]

lemma getD_append_cons (a b : List Str) (x : Str) :
    (a ++ x :: b).getD (a.length + 1) [] = b.headD [] := by
  have h1 : (a ++ x :: b)[a.length + 1]? = (x :: b)[a.length + 1 - a.length]? :=
    List.getElem?_append_right (by omega)
  have h2 : a.length + 1 - a.length = 1 := by omega
  rw [h2] at h1
  simp [List.getD, h1]
  cases b <;> simp

lemma head_dropWhile_false (p : Char → Bool) (l : Str) :
    ∀ c ∈ (l.dropWhile p).head?, p c = false := by
  induction l with
  | nil => simp
  | cons c cs ih =>
    by_cases h : p c
    · simpa [List.dropWhile_cons, h] using ih
    · simp [List.dropWhile_cons, h]

lemma splitOnChar_cons (sep c : Char) (cs : Str) :
    splitOnChar sep (c :: cs) =
      (match splitOnChar sep cs with
       | [] => if c = sep then [[], []] else [[c]]
       | h :: t => if c = sep then [] :: h :: t else (c :: h) :: t) := rfl

lemma splitOnChar_ne_nil (sep : Char) (l : Str) : splitOnChar sep l ≠ [] := by
  cases l with
  | nil => simp [splitOnChar]
  | cons c cs =>
    rw [splitOnChar_cons]
    cases h : splitOnChar sep cs with
    | nil => by_cases hc : c = sep <;> simp [hc]
    | cons h t => by_cases hc : c = sep <;> simp [hc]

lemma getLastD_splitOnChar_concat (sep c : Char) (hc : c ≠ sep) (l : Str) :
    (splitOnChar sep (l ++ [c])).getLastD [] ≠ [] := by
  induction l with
  | nil => simp [splitOnChar, hc]
  | cons d ds ih =>
    rw [List.cons_append, splitOnChar_cons]
    cases hsp : splitOnChar sep (ds ++ [c]) with
    | nil => exact absurd hsp (splitOnChar_ne_nil sep (ds ++ [c]))
    | cons h t =>
      rw [hsp] at ih
      by_cases hd : d = sep
      · simpa [hd, List.getLastD_cons] using ih
      · cases t with
        | nil => simp [hd]
        | cons t1 ts => simpa [hd, List.getLastD_cons] using ih

/-- C8: name derivation returns the path segment immediately following the
first segment literally equal to `"envs"` when one exists and is followed by
a segment; when the path has no `"envs"` segment (or `"envs"` is the final
segment), it returns `"base"` when the prefix ends in a known base-install
directory name (`miniconda3` or `anaconda3`) and the last path segment
otherwise; in particular `/home/u/miniconda3` yields `base` and
`/home/u/miniconda3/envs/demo` yields `demo`. -/
theorem c8_nameFromPrefix_derivation (pfx : Str) :
    (∀ a b, splitOnChar '/' (rstripSlash pfx) = a ++ (str "envs") :: b →
      (str "envs") ∉ a → b ≠ [] → nameFromPrefix pfx = b.headD []) ∧
    ((str "envs") ∉ splitOnChar '/' (rstripSlash pfx) →
      nameFromPrefix pfx =
        (if (str "miniconda3").isSuffixOf pfx ∨ (str "anaconda3").isSuffixOf pfx
         then str "base" else (splitOnChar '/' (rstripSlash pfx)).getLastD [])) ∧
    (∀ a, splitOnChar '/' (rstripSlash pfx) = a ++ [str "envs"] → (str "envs") ∉ a →
      nameFromPrefix pfx =
        (if (str "miniconda3").isSuffixOf pfx ∨ (str "anaconda3").isSuffixOf pfx
         then str "base" else (splitOnChar '/' (rstripSlash pfx)).getLastD [])) ∧
    nameFromPrefix (str "/home/u/miniconda3") = str "base" ∧
    nameFromPrefix (str "/home/u/miniconda3/envs/demo") = str "demo" := by
  refine ⟨?_, ?_, ?_, by decide, by decide⟩
  · intro a b hsplit hnm hb
    have hidx : indexOfStr (str "envs") (splitOnChar '/' (rstripSlash pfx)) = a.length := by
      rw [hsplit]; exact indexOfStr_append_not_mem _ a b hnm
    have hmem : (str "envs") ∈ splitOnChar '/' (rstripSlash pfx) := by
      rw [hsplit]; simp
    have hlen : indexOfStr (str "envs") (splitOnChar '/' (rstripSlash pfx)) + 1 <
        (splitOnChar '/' (rstripSlash pfx)).length := by
      rw [hidx, hsplit]
      simp only [List.length_append, List.length_cons]
      have : b.length ≠ 0 := fun h0 => hb (List.length_eq_zero.mp h0)
      omega
    unfold nameFromPrefix
    rw [if_pos ⟨hmem, hlen⟩, hidx, hsplit]
    exact getD_append_cons a b (str "envs")
  · intro hnm
    unfold nameFromPrefix
    rw [if_neg]
    intro hcontra
    exact hnm hcontra.1
  · intro a hsplit hnm
    have hidx : indexOfStr (str "envs") (splitOnChar '/' (rstripSlash pfx)) = a.length := by
      rw [hsplit]
      simpa using indexOfStr_append_not_mem _ a [] hnm
    have hlen : (splitOnChar '/' (rstripSlash pfx)).length = a.length + 1 := by
      rw [hsplit]; simp
    unfold nameFromPrefix
    rw [if_neg]
    intro hcontra
    rw [hidx, hlen] at hcontra
    omega

/-- Witness for `c8_nameFromPrefix_derivation`: the prefix `/x/envs/demo`
splits as `["", "x"] ++ "envs" :: ["demo"]` and derives the name `demo`. -/
theorem c8_witness :
    splitOnChar '/' (rstripSlash (str "/x/envs/demo")) =
        [[], str "x"] ++ (str "envs") :: [str "demo"] ∧
    (str "envs") ∉ [[], str "x"] ∧ [str "demo"] ≠ ([] : List Str) ∧
    nameFromPrefix (str "/x/envs/demo") = [str "demo"].headD [] :=
  ⟨by decide, by decide, by decide,
    (c8_nameFromPrefix_derivation (str "/x/envs/demo")).1 [[], str "x"] [str "demo"]
      (by decide) (by decide) (by decide)⟩

/-- C9, counterexample: the empty prefix derives the empty name, refuting
the claim that the derived name is always non-empty (likewise e.g. `"/"`). -/
theorem c9_counterexample :
    nameFromPrefix (str "") = [] ∧ nameFromPrefix (str "/") = [] ∧
    nameFromPrefix (str "/envs//x") = [] := by
  refine ⟨by decide, by decide, by decide⟩

/-- C9 (amended): name derivation is deterministic (a pure function of the
prefix), and the derived name is non-empty provided the prefix contains at
least one character other than `/` and, when an `"envs"` segment is followed
by a further segment, the first such following segment is non-empty.  (The
unamended claim fails for degenerate prefixes such as the empty string.) -/
theorem c9_nameFromPrefix_nonempty (pfx : Str)
    (h1 : ∃ c ∈ pfx, c ≠ '/')
    (h2 : (str "envs") ∈ splitOnChar '/' (rstripSlash pfx) →
      indexOfStr (str "envs") (splitOnChar '/' (rstripSlash pfx)) + 1 <
        (splitOnChar '/' (rstripSlash pfx)).length →
      (splitOnChar '/' (rstripSlash pfx)).getD
        (indexOfStr (str "envs") (splitOnChar '/' (rstripSlash pfx)) + 1) [] ≠ []) :
    nameFromPrefix pfx ≠ [] ∧
    (∀ q, pfx = q → nameFromPrefix pfx = nameFromPrefix q) := by
  constructor
  · unfold nameFromPrefix
    by_cases hc : (str "envs") ∈ splitOnChar '/' (rstripSlash pfx) ∧
        indexOfStr (str "envs") (splitOnChar '/' (rstripSlash pfx)) + 1 <
          (splitOnChar '/' (rstripSlash pfx)).length
    · rw [if_pos hc]
      exact h2 hc.1 hc.2
    · rw [if_neg hc]
      by_cases hs : (str "miniconda3").isSuffixOf pfx ∨ (str "anaconda3").isSuffixOf pfx
      · rw [if_pos hs]; decide
      · rw [if_neg hs]
        have hrs : rstripSlash pfx ≠ [] := by
          intro hnil
          obtain ⟨c0, hc0m, hc0⟩ := h1
          have : pfx.reverse.dropWhile (· = '/') = [] := by
            have := congrArg List.reverse hnil
            simpa [rstripSlash] using this
          rw [List.dropWhile_eq_nil_iff] at this
          exact hc0 (by simpa using this c0 (by simp [hc0m]))
        have hlast : rstripSlash pfx =
            (rstripSlash pfx).dropLast ++ [(rstripSlash pfx).getLast hrs] :=
          (List.dropLast_append_getLast hrs).symm
        have hlc : (rstripSlash pfx).getLast hrs ≠ '/' := by
          have hhead : ((rstripSlash pfx).reverse).head? =
              some ((rstripSlash pfx).getLast hrs) := by
            rw [List.head?_reverse]
            exact List.getLast?_eq_getLast _ hrs
          have hrev : (rstripSlash pfx).reverse = pfx.reverse.dropWhile (· = '/') := by
            simp [rstripSlash]
          have := head_dropWhile_false (· = '/') pfx.reverse
          rw [← hrev, hhead] at this
          have hfalse := this _ rfl
          simpa using hfalse
        rw [hlast]
        exact getLastD_splitOnChar_concat '/' _ hlc _
  · intro q hq
    rw [hq]

/-- Witness for `c9_nameFromPrefix_nonempty` at the prefix `/a/b`. -/
theorem c9_witness :
    (∃ c ∈ str "/a/b", c ≠ '/') ∧ nameFromPrefix (str "/a/b") ≠ [] :=
  ⟨⟨'a', by decide⟩,
    (c9_nameFromPrefix_nonempty (str "/a/b") ⟨'a', by decide⟩ (by decide)).1⟩

lemma dropWhile_append_of_ne_nil (p : Char → Bool) (a b : Str)
    (h : a.dropWhile p ≠ []) : (a ++ b).dropWhile p = a.dropWhile p ++ b := by
  induction a with
  | nil => exact absurd rfl h
  | cons c cs ih =>
    by_cases hc : p c
    · rw [List.cons_append, List.dropWhile_cons, if_pos hc, List.dropWhile_cons, if_pos hc] at *
      exact ih (by simpa [List.dropWhile_cons, hc] using h)
    · simp [List.dropWhile_cons, hc]

lemma dropWhile_append_of_nil (p : Char → Bool) (a b : Str)
    (h : a.dropWhile p = []) : (a ++ b).dropWhile p = b.dropWhile p := by
  induction a with
  | nil => rfl
  | cons c cs ih =>
    by_cases hc : p c
    · rw [List.dropWhile_cons, if_pos hc] at h
      simpa [List.dropWhile_cons, hc] using ih h
    · simp [List.dropWhile_cons, hc] at h

lemma rstripWs_cons_of_not (c : Char) (y : Str) (h : isPySpace c = false) :
    rstripWs (c :: y) = c :: rstripWs y := by
  unfold rstripWs
  rw [List.reverse_cons]
  by_cases hy : y.reverse.dropWhile isPySpace = []
  · rw [dropWhile_append_of_nil _ _ _ hy, hy]
    simp [List.dropWhile_cons, h]
  · rw [dropWhile_append_of_ne_nil _ _ _ hy]
    simp

lemma rstripWs_append_of_ne (x y : Str) (h : rstripWs y ≠ []) :
    rstripWs (x ++ y) = x ++ rstripWs y := by
  unfold rstripWs at *
  rw [List.reverse_append]
  have h' : y.reverse.dropWhile isPySpace ≠ [] := by
    intro h0
    apply h
    rw [h0]
    rfl
  rw [dropWhile_append_of_ne_nil _ _ _ h']
  simp

lemma rstripWs_append_cons (x : Str) (c : Char) (y : Str) (h : isPySpace c = false) :
    rstripWs (x ++ c :: y) = x ++ c :: rstripWs y := by
  rw [rstripWs_append_of_ne x (c :: y) (by rw [rstripWs_cons_of_not c y h]; simp),
    rstripWs_cons_of_not c y h]

lemma stripWs_cons_of_not (c : Char) (z : Str) (h : isPySpace c = false) :
    stripWs (c :: z) = c :: rstripWs z := by
  unfold stripWs
  rw [rstripWs_cons_of_not c z h]
  simp [lstripWs, List.dropWhile_cons, h]

lemma head_false_of_stripWs_eq_self (l : Str) (h : stripWs l = l) :
    ∀ c ∈ l.head?, isPySpace c = false := by
  intro c hc
  rw [← h] at hc
  exact head_dropWhile_false isPySpace (rstripWs l) c hc

lemma mem_of_mem_rstripWs {c : Char} {l : Str} (h : c ∈ rstripWs l) : c ∈ l := by
  unfold rstripWs at h
  rw [List.mem_reverse] at h
  exact List.mem_reverse.mp ((List.dropWhile_sublist isPySpace).mem h)

lemma mem_of_mem_stripWs {c : Char} {l : Str} (h : c ∈ stripWs l) : c ∈ l :=
  mem_of_mem_rstripWs ((List.dropWhile_sublist isPySpace).mem h)

lemma splitOnChar_no_sep (sep : Char) (l : Str) (h : ∀ c ∈ l, ¬(c = sep)) :
    splitOnChar sep l = [l] := by
  induction l with
  | nil => rfl
  | cons c cs ih =>
    rw [splitOnChar_cons, ih (fun x hx => h x (List.mem_cons_of_mem c hx))]
    simp [h c (List.mem_cons_self c cs)]

lemma breakOnChar_append_cons (sep : Char) (x y : Str) (h : sep ∉ x) :
    breakOnChar sep (x ++ sep :: y) = some (x, y) := by
  induction x with
  | nil => simp [breakOnChar]
  | cons c cs ih =>
    have hc : ¬(c = sep) := fun hc => h (by simp [← hc])
    have hcs : sep ∉ cs := fun hm => h (List.mem_cons_of_mem c hm)
    simp [breakOnChar, hc, ih hcs]

lemma breakOnChar_eq_none (sep : Char) (l : Str) (h : sep ∉ l) :
    breakOnChar sep l = none := by
  induction l with
  | nil => rfl
  | cons c cs ih =>
    have hc : ¬(c = sep) := fun hc => h (by simp [← hc])
    have hcs : sep ∉ cs := fun hm => h (List.mem_cons_of_mem c hm)
    simp [breakOnChar, hc, ih hcs]

lemma parse_services_single (raw : Str) (hne : stripWs raw ≠ [])
    (hnc : ',' ∉ stripWs raw) :
    parse_services_config raw =
      (match breakOnChar ':' (stripWs raw) with
       | some p => [⟨if stripWs p.1 = [] then str "user" else stripWs p.1, stripWs p.2⟩]
       | none => [⟨str "user", stripWs raw⟩]) := by
  unfold parse_services_config
  rw [if_neg hne, splitOnChar_no_sep ',' (stripWs raw) (fun c hc hceq => hnc (hceq ▸ hc))]
  simp only [List.foldl_cons, List.foldl_nil, stripWs_idem, if_neg hne]
  cases breakOnChar ':' (stripWs raw) with
  | none => simp
  | some p => simp

lemma stripWs_rstripWs (l : Str) : stripWs (rstripWs l) = stripWs l := by
  unfold stripWs
  rw [rstripWs_idem]

/-- C10: service-config parsing accepts any text before the first colon of
an item as the scope without validating it against user/system: a stripped,
colon-free, non-empty scope text is taken verbatim (`"foo:bar.service"`
yields scope `foo`, name `bar.service`); only an item with no colon, or one
whose scope part trims to empty, defaults to scope `user`. -/
theorem c10_parse_services_scope_unvalidated :
    parse_services_config (str "foo:bar.service") =
        [⟨str "foo", str "bar.service"⟩] ∧
    (∀ sc nm : Str, ',' ∉ sc → ',' ∉ nm → ':' ∉ sc → stripWs sc = sc → sc ≠ [] →
      parse_services_config (sc ++ ':' :: nm) = [⟨sc, stripWs nm⟩]) ∧
    (∀ nm : Str, ',' ∉ nm → ':' ∉ nm → stripWs nm ≠ [] →
      parse_services_config nm = [⟨str "user", stripWs nm⟩]) ∧
    (∀ nm : Str, ',' ∉ nm →
      parse_services_config (':' :: nm) = [⟨str "user", stripWs nm⟩]) := by
  refine ⟨by decide, ?_, ?_, ?_⟩
  · intro sc nm h1 h2 h3 h4 h5
    obtain ⟨c0, rest, rfl⟩ : ∃ c0 rest, sc = c0 :: rest := by
      cases sc with
      | nil => exact absurd rfl h5
      | cons c0 rest => exact ⟨c0, rest, rfl⟩
    have hc0 : isPySpace c0 = false :=
      head_false_of_stripWs_eq_self _ h4 c0 (by simp)
    have hr : rstripWs ((c0 :: rest) ++ ':' :: nm) = (c0 :: rest) ++ ':' :: rstripWs nm :=
      rstripWs_append_cons _ ':' nm (by decide)
    have hstrip : stripWs ((c0 :: rest) ++ ':' :: nm) =
        (c0 :: rest) ++ ':' :: rstripWs nm := by
      unfold stripWs
      rw [hr]
      simp [lstripWs, List.dropWhile_cons, hc0]
    have hne : stripWs ((c0 :: rest) ++ ':' :: nm) ≠ [] := by
      rw [hstrip]
      simp
    have hnc : ',' ∉ stripWs ((c0 :: rest) ++ ':' :: nm) := by
      rw [hstrip]
      intro hmem
      rcases List.mem_append.mp hmem with hmem | hmem
      · exact h1 hmem
      · rcases List.mem_cons.mp hmem with hmem | hmem
        · exact absurd hmem (by decide)
        · exact h2 (mem_of_mem_rstripWs hmem)
    rw [parse_services_single _ hne hnc, hstrip,
      breakOnChar_append_cons ':' (c0 :: rest) (rstripWs nm) h3]
    have hscne : stripWs (c0 :: rest) ≠ [] := by
      rw [h4]
      simp
    simp only [h4, stripWs_rstripWs]
    simp
  · intro nm h2 h3 hne
    have hnc : ',' ∉ stripWs nm := fun hm => h2 (mem_of_mem_stripWs hm)
    rw [parse_services_single _ hne hnc,
      breakOnChar_eq_none ':' (stripWs nm) (fun hm => h3 (mem_of_mem_stripWs hm))]
  · intro nm h2
    have hstrip : stripWs (':' :: nm) = ':' :: rstripWs nm :=
      stripWs_cons_of_not ':' nm (by decide)
    have hne : stripWs (':' :: nm) ≠ [] := by
      rw [hstrip]
      simp
    have hnc : ',' ∉ stripWs (':' :: nm) := by
      rw [hstrip]
      intro hmem
      rcases List.mem_cons.mp hmem with hmem | hmem
      · exact absurd hmem (by decide)
      · exact h2 (mem_of_mem_rstripWs hmem)
    rw [parse_services_single _ hne hnc, hstrip]
    have hbrk : breakOnChar ':' (':' :: rstripWs nm) = some ([], rstripWs nm) := by
      simp [breakOnChar]
    rw [hbrk]
    simp only [stripWs_rstripWs]
    have : stripWs ([] : Str) = [] := rfl
    simp [this]

/-- Witness for `c10_parse_services_scope_unvalidated`: the unvalidated
scope text `any` is accepted verbatim. -/
theorem c10_witness :
    (',' ∉ str "any") ∧ (',' ∉ str " svc ") ∧ (':' ∉ str "any") ∧
    stripWs (str "any") = str "any" ∧ str "any" ≠ [] ∧
    parse_services_config (str "any" ++ ':' :: str " svc ") =
      [⟨str "any", stripWs (str " svc ")⟩] :=
  ⟨by decide, by decide, by decide, by decide, by decide,
    (c10_parse_services_scope_unvalidated).2.1 (str "any") (str " svc ")
      (by decide) (by decide) (by decide) (by decide) (by decide)⟩

lemma dictGet_cons {α : Type} (p : Str × α) (ds : List (Str × α)) (k : Str) :
    dictGet (p :: ds) k = if p.1 = k then some p.2 else dictGet ds k := by
  unfold dictGet
  by_cases h : p.1 = k <;> simp [List.find?_cons, h]

lemma dictGet_nil {α : Type} (k : Str) : dictGet ([] : List (Str × α)) k = none := rfl

lemma dictGet_append {α : Type} (d1 d2 : List (Str × α)) (k : Str) :
    dictGet (d1 ++ d2) k =
      (match dictGet d1 k with
       | some v => some v
       | none => dictGet d2 k) := by
  induction d1 with
  | nil => simp [dictGet_nil]
  | cons p ds ih =>
    by_cases hp : p.1 = k <;> simp [dictGet_cons, hp, ih]

lemma dictGet_eq_none_of_not_any {α : Type} (d : List (Str × α)) (k : Str)
    (h : d.any (fun q => q.1 == k) = false) : dictGet d k = none := by
  induction d with
  | nil => rfl
  | cons p ds ih =>
    simp only [List.any_cons, Bool.or_eq_false_iff] at h
    rw [dictGet_cons, if_neg (by simpa using h.1)]
    exact ih h.2

lemma dictGet_map_set_self {α : Type} (d : List (Str × α)) (k : Str) (v : α)
    (h : d.any (fun q => q.1 == k) = true) :
    dictGet (d.map (fun p => if p.1 == k then (k, v) else p)) k = some v := by
  induction d with
  | nil => simp at h
  | cons p ds ih =>
    by_cases hp : p.1 = k
    · have h1 : (if (p.1 == k) = true then (k, v) else p) = (k, v) := by simp [hp]
      simp only [List.map_cons, h1, dictGet_cons]
      simp
    · have h1 : (if (p.1 == k) = true then (k, v) else p) = p := by simp [hp]
      have h2 : (ds.any fun q => q.1 == k) = true := by
        rcases List.any_eq_true.mp h with ⟨q, hq, hq2⟩
        rcases List.mem_cons.mp hq with rfl | hq'
        · exact absurd (by simpa using hq2) hp
        · exact List.any_eq_true.mpr ⟨q, hq', hq2⟩
      simp only [List.map_cons, h1, dictGet_cons]
      rw [if_neg hp]
      exact ih h2

lemma dictGet_dictSet_self {α : Type} (d : List (Str × α)) (k : Str) (v : α) :
    dictGet (dictSet d k v) k = some v := by
  unfold dictSet
  by_cases h : d.any (fun q => q.1 == k) = true
  · rw [if_pos h]
    exact dictGet_map_set_self d k v h
  · have hfalse : d.any (fun q => q.1 == k) = false := by
      cases hb : d.any (fun q => q.1 == k) with
      | true => exact absurd hb h
      | false => rfl
    rw [if_neg h, dictGet_append, dictGet_eq_none_of_not_any d k hfalse]
    show dictGet [(k, v)] k = some v
    rw [dictGet_cons]
    simp

/-- Single-pass escape used to characterize the source's two sequential
`replace` calls: backslash and double quote become backslash-prefixed. -/
def escChar (c : Char) : Str :=
  if c = '\\' then ['\\', '\\'] else if c = '"' then ['\\', '"'] else [c]

lemma str_bs2 : str "\\\\" = ['\\', '\\'] := rfl

lemma str_bsq : str "\\\"" = ['\\', '"'] := rfl

lemma replace2_eq_flatMap (v : Str) :
    replaceChar '"' (str "\\\"") (replaceChar '\\' (str "\\\\") v) =
      v.flatMap escChar := by
  induction v with
  | nil => rfl
  | cons c cs ih =>
    show replaceChar '"' (str "\\\"")
        ((if c = '\\' then str "\\\\" else [c]) ++ replaceChar '\\' (str "\\\\") cs) =
      escChar c ++ cs.flatMap escChar
    unfold replaceChar
    rw [List.flatMap_append]
    show (if c = '\\' then str "\\\\" else [c]).flatMap
        (fun x => if x = '"' then str "\\\"" else [x]) ++
        (replaceChar '\\' (str "\\\\") cs).flatMap
          (fun x => if x = '"' then str "\\\"" else [x]) =
      escChar c ++ cs.flatMap escChar
    rw [show (replaceChar '\\' (str "\\\\") cs).flatMap
        (fun x => if x = '"' then str "\\\"" else [x]) = cs.flatMap escChar from ih]
    congr 1
    by_cases h1 : c = '\\'
    · subst h1
      decide
    · by_cases h2 : c = '"'
      · subst h2
        decide
      · simp [escChar, h1, h2]

lemma needs_quotes_false_iff (v : Str) :
    needs_quotes v = false ↔ ∀ c ∈ v, safeChar c = true := by
  simp [needs_quotes, List.all_eq_true]

lemma needs_quotes_of_space (v : Str) (h : ' ' ∈ v) : needs_quotes v = true := by
  have hs : ¬safeChar ' ' = true := by decide
  have hall : v.all safeChar = false := List.all_eq_false.mpr ⟨' ', h, hs⟩
  simp [needs_quotes, hall]

lemma mem_serialize_val (v : Str) (x : Char) (h : x ∈ serialize_val v) :
    x ∈ v ∨ x = '\\' ∨ x = '"' := by
  unfold serialize_val at h
  by_cases hq : needs_quotes v = true
  · rw [if_pos hq] at h
    rcases List.mem_cons.mp h with rfl | h
    · right; right; rfl
    rcases List.mem_append.mp h with h | h
    · rw [replace2_eq_flatMap] at h
      rcases List.mem_flatMap.mp h with ⟨c, hc, hx⟩
      unfold escChar at hx
      by_cases h1 : c = '\\'
      · rw [if_pos h1] at hx
        rcases List.mem_cons.mp hx with rfl | hx
        · right; left; rfl
        · right; left; simpa using hx
      · rw [if_neg h1] at hx
        by_cases h2 : c = '"'
        · rw [if_pos h2] at hx
          rcases List.mem_cons.mp hx with rfl | hx
          · right; left; rfl
          · right; right; simpa using hx
        · rw [if_neg h2] at hx
          left
          simpa using (by simpa using hx : x = c) ▸ hc
    · right; right; simpa using h
  · rw [if_neg hq] at h
    left
    exact h

lemma stripWs_serialize_quoted (v : Str) (h : needs_quotes v = true) :
    stripWs (serialize_val v) = serialize_val v := by
  unfold serialize_val
  rw [if_pos h, List.cons_append]
  rw [stripWs_cons_of_not '"' _ (by decide),
    rstripWs_append_cons _ '"' [] (by decide)]
  rfl

lemma translateNL_cons_ne (c : Char) (cs : Str) (hc : ¬(c = '\x0d')) :
    translateNL (c :: cs) = c :: translateNL cs := by
  rw [translateNL.eq_def]
  split
  · simp_all
  · simp_all
  · simp_all
  · rename_i heq
    injection heq with h1 h2
    rw [h1, h2]

lemma translateNL_eq_self (l : Str) (h : '\x0d' ∉ l) : translateNL l = l := by
  induction l with
  | nil => rfl
  | cons c cs ih =>
    have hc : ¬(c = '\x0d') := fun hceq => h (by simp [hceq])
    have hcs : '\x0d' ∉ cs := fun hm => h (List.mem_cons_of_mem c hm)
    rw [translateNL_cons_ne c cs hc, ih hcs]

lemma lineKV_mkLine (k z : Str) (hk : '=' ∉ k)
    (hhash : ¬((lstripWs (k ++ '=' :: z)).head? = some '#')) :
    lineKV (k ++ '=' :: z) = some (stripWs k, stripWs z) := by
  unfold lineKV
  rw [if_neg (by simp : ¬(k ++ '=' :: z = [])), if_neg hhash,
    breakOnChar_append_cons '=' k z hk]

lemma parse_env_file_single (line : Str) (hne : line ≠ []) (hnl : '\n' ∉ line)
    (hcr : '\x0d' ∉ line) :
    parse_env_file line = parse_env_lines [line] := by
  simp only [parse_env_file, pySplitlines]
  rw [translateNL_eq_self line hcr,
    splitOnChar_no_sep '\n' line (fun c hc hceq => hnl (hceq ▸ hc))]
  simp [hne]

/-- C4, counterexample: serializing the value `a b` (which contains a space)
yields the quoted text `"a b"`, and re-parsing the serialized line with the
read path returns that quoted text, not the original value: the read path
does not unquote. -/
theorem c4_counterexample :
    serialize_val (str "a b") = str "\"a b\"" ∧
    dictGet (parse_env_file (str "KEY=" ++ serialize_val (str "a b"))) (str "KEY") =
      some (str "\"a b\"") ∧
    ¬(str "\"a b\"" = str "a b") := by
  refine ⟨by decide, by decide, by decide⟩

/-- C4 (amended): serialization emits the value verbatim exactly when every
character is in the unquoted-safe set (the empty value included), and
otherwise wraps in double quotes escaping backslash and double-quote; for a
value containing a space (and no line terminators, with a well-formed key),
a subsequent parse of the serialized key=value line by the read path
recovers the serialized (quoted, escaped) text — not the original value. -/
theorem c4_serialize_val_spec :
    (∀ v : Str, needs_quotes v = false ↔ ∀ c ∈ v, safeChar c = true) ∧
    (∀ v : Str, (∀ c ∈ v, safeChar c = true) → serialize_val v = v) ∧
    (∀ v : Str, needs_quotes v = true →
      serialize_val v = '"' :: v.flatMap escChar ++ ['"']) ∧
    (∀ k v : Str, ' ' ∈ v → '\n' ∉ v → '\x0d' ∉ v →
      '\n' ∉ k → '\x0d' ∉ k → '=' ∉ k → stripWs k = k → k ≠ [] →
      ¬(k.head? = some '#') →
      dictGet (parse_env_file (k ++ '=' :: serialize_val v)) k =
        some (serialize_val v)) := by
  refine ⟨needs_quotes_false_iff, ?_, ?_, ?_⟩
  · intro v h
    unfold serialize_val
    rw [if_neg (by simp [(needs_quotes_false_iff v).mpr h])]
  · intro v h
    unfold serialize_val
    rw [if_pos h, replace2_eq_flatMap]
  · intro k v hsp hnlv hcrv hnlk hcrk hkeq hks hkne hkh
    have hq : needs_quotes v = true := needs_quotes_of_space v hsp
    have hnl_sv : '\n' ∉ serialize_val v := by
      intro hm
      rcases mem_serialize_val v '\n' hm with h | h | h
      · exact hnlv h
      · exact absurd h (by decide)
      · exact absurd h (by decide)
    have hcr_sv : '\x0d' ∉ serialize_val v := by
      intro hm
      rcases mem_serialize_val v '\x0d' hm with h | h | h
      · exact hcrv h
      · exact absurd h (by decide)
      · exact absurd h (by decide)
    have hlinene : (k ++ '=' :: serialize_val v) ≠ [] := by simp
    have hnl_line : '\n' ∉ (k ++ '=' :: serialize_val v) := by
      intro hm
      rcases List.mem_append.mp hm with h | h
      · exact hnlk h
      · rcases List.mem_cons.mp h with h | h
        · exact absurd h (by decide)
        · exact hnl_sv h
    have hcr_line : '\x0d' ∉ (k ++ '=' :: serialize_val v) := by
      intro hm
      rcases List.mem_append.mp hm with h | h
      · exact hcrk h
      · rcases List.mem_cons.mp h with h | h
        · exact absurd h (by decide)
        · exact hcr_sv h
    rw [parse_env_file_single _ hlinene hnl_line hcr_line]
    obtain ⟨c0, rest, rfl⟩ : ∃ c0 rest, k = c0 :: rest := by
      cases k with
      | nil => exact absurd rfl hkne
      | cons c0 rest => exact ⟨c0, rest, rfl⟩
    have hc0 : isPySpace c0 = false :=
      head_false_of_stripWs_eq_self _ hks c0 (by simp)
    have hc0h : ¬(c0 = '#') := by
      intro hh
      exact hkh (by simp [hh])
    have hhash : ¬((lstripWs ((c0 :: rest) ++ '=' :: serialize_val v)).head? =
        some '#') := by
      have hlst : lstripWs ((c0 :: rest) ++ '=' :: serialize_val v) =
          (c0 :: rest) ++ '=' :: serialize_val v := by
        simp [lstripWs, List.dropWhile_cons, hc0]
      rw [hlst]
      simp [hc0h]
    simp only [parse_env_lines, List.foldl_cons, List.foldl_nil]
    rw [lineKV_mkLine _ _ hkeq hhash]
    rw [hks, stripWs_serialize_quoted v hq]
    exact dictGet_dictSet_self [] (c0 :: rest) (serialize_val v)

/-- Witness for `c4_serialize_val_spec`: the safe value `9090` round-trips
verbatim, and parsing the serialized line for the unsafe value `a b` under
key `KEY` yields the serialized text. -/
theorem c4_witness :
    (∀ c ∈ str "9090", safeChar c = true) ∧
    serialize_val (str "9090") = str "9090" ∧
    (' ' ∈ str "a b") ∧
    dictGet (parse_env_file (str "KEY" ++ '=' :: serialize_val (str "a b")))
        (str "KEY") = some (serialize_val (str "a b")) :=
  ⟨by decide, c4_serialize_val_spec.2.1 (str "9090") (by decide), by decide,
    c4_serialize_val_spec.2.2.2 (str "KEY") (str "a b") (by decide) (by decide)
      (by decide) (by decide) (by decide) (by decide) (by decide) (by decide)
      (by decide)⟩

lemma apply_one_applied (current : List (Str × Str)) (env : Str → Option Str)
    (keyIndex : List (Str × Nat)) (st : UpdState) (u : Str × Str)
    (h1 : stripWs u.1 ∈ editable_keys)
    (h2 : ¬(stripWs u.1 = str "MASK_SECRETS"))
    (h3 : ¬(stripWs u.1 = str "ACTION_TOKEN" ∨ stripWs u.1 = str "SECRET_KEY")) :
    apply_one current env keyIndex st u =
      { lines :=
          (match dictGet keyIndex (stripWs u.1) with
           | some i => st.lines.set i (stripWs u.1 ++ str "=" ++ serialize_val u.2)
           | none => st.lines ++ [stripWs u.1 ++ str "=" ++ serialize_val u.2]),
        applied := st.applied ++ [stripWs u.1],
        restart :=
          if (stripWs u.1 = str "PORT" ∨ stripWs u.1 = str "BIND_HOST") ∧
              ¬(((dictGet current (stripWs u.1)).orElse
                  (fun _ => env (stripWs u.1))).getD [] = u.2)
          then true else st.restart } := by
  simp only [apply_one]
  rw [if_neg (not_not_intro h1), if_neg h2, if_neg (fun hc => h3 hc.1)]
  cases dictGet keyIndex (stripWs u.1) with
  | none => rfl
  | some i => rfl

/-- C3: for a single applied update to a restart-sensitive key (`PORT` or
`BIND_HOST`), `api_envfile_update` applies the key and reports
`restartRequired = true` exactly when the new value differs from the prior
value, where the prior value is the one read from the config file or, absent
there, the process environment value (empty when absent from both). -/
theorem c3_restart_required (fileExists : Bool) (fileContent exampleContent : Str)
    (exampleExists : Bool) (env : Str → Option Str) (k v : Str)
    (hk : k = str "PORT" ∨ k = str "BIND_HOST") :
    (api_envfile_update fileExists fileContent exampleExists exampleContent env
        [(k, v)]).updated = [k] ∧
    ((api_envfile_update fileExists fileContent exampleExists exampleContent env
        [(k, v)]).restartRequired = true ↔
      ¬(((dictGet (if fileExists then parse_env_file fileContent else []) k).orElse
          (fun _ => env k)).getD [] = v)) := by
  have hstrip : stripWs k = k := by rcases hk with rfl | rfl <;> decide
  have hmem : stripWs k ∈ editable_keys := by rcases hk with rfl | rfl <;> decide
  have hmask : ¬(stripWs k = str "MASK_SECRETS") := by rcases hk with rfl | rfl <;> decide
  have hsens : ¬(stripWs k = str "ACTION_TOKEN" ∨ stripWs k = str "SECRET_KEY") := by
    rcases hk with rfl | rfl <;> decide
  have hrs : stripWs k = str "PORT" ∨ stripWs k = str "BIND_HOST" := by
    rw [hstrip]; exact hk
  unfold api_envfile_update
  simp only [List.foldl_cons, List.foldl_nil]
  rw [apply_one_applied _ _ _ _ (k, v) hmem hmask hsens]
  rw [hstrip]
  simp only [List.nil_append]
  rw [if_neg (by simp : ¬([k] = ([] : List Str)))]
  refine ⟨rfl, ?_⟩
  show (if (k = str "PORT" ∨ k = str "BIND_HOST") ∧
        ¬(((dictGet (if fileExists then parse_env_file fileContent else []) k).orElse
          (fun _ => env k)).getD [] = v) then true else false) = true ↔
      ¬(((dictGet (if fileExists then parse_env_file fileContent else []) k).orElse
          (fun _ => env k)).getD [] = v)
  by_cases hd : ¬(((dictGet (if fileExists then parse_env_file fileContent else []) k).orElse
      (fun _ => env k)).getD [] = v)
  · rw [if_pos ⟨hk, hd⟩]
    exact ⟨fun _ => hd, fun _ => rfl⟩
  · rw [if_neg (fun hc => hd hc.2)]
    rw [not_not] at hd
    simp [hd]

/-- Witness for `c3_restart_required`: updating `PORT` from a file holding
`PORT=8080` to `9090` is applied and requires a restart. -/
theorem c3_witness :
    (str "PORT" = str "PORT" ∨ str "PORT" = str "BIND_HOST") ∧
    (api_envfile_update true (str "PORT=8080\n") false [] (fun _ => none)
        [(str "PORT", str "9090")]).updated = [str "PORT"] ∧
    ((api_envfile_update true (str "PORT=8080\n") false [] (fun _ => none)
        [(str "PORT", str "9090")]).restartRequired = true ↔
      ¬(((dictGet (if true then parse_env_file (str "PORT=8080\n") else [])
            (str "PORT")).orElse (fun _ => none)).getD [] = str "9090")) :=
  ⟨Or.inl rfl,
    c3_restart_required true (str "PORT=8080\n") [] false (fun _ => none)
      (str "PORT") (str "9090") (Or.inl rfl)⟩

lemma translateNL_no_cr (l : Str) : '\x0d' ∉ translateNL l := by
  induction l using translateNL.induct with
  | case1 => simp [translateNL]
  | case2 cs ih =>
    rw [translateNL]
    intro h
    rcases List.mem_cons.mp h with h | h
    · exact absurd h (by decide)
    · exact ih h
  | case3 cs g ih =>
    rw [translateNL.eq_def]
    split
    · simp
    · rename_i heq
      injection heq with h1 h2
      exact (g _ h2).elim
    · rename_i heq
      injection heq with h1 h2
      rw [← h2]
      intro h
      rcases List.mem_cons.mp h with h | h
      · exact absurd h (by decide)
      · exact absurd h ih
    · rename_i hg heq
      injection heq with h1 h2
      exact absurd h1.symm (by simpa using hg)
  | case4 c cs g1 g2 ih =>
    rw [translateNL_cons_ne c cs (by simpa using g2)]
    intro h
    rcases List.mem_cons.mp h with h | h
    · exact absurd h.symm (by simpa using g2)
    · exact absurd h ih

lemma mem_splitOnChar_no_sep (sep : Char) (l : Str) :
    ∀ x ∈ splitOnChar sep l, sep ∉ x := by
  induction l with
  | nil =>
    intro x hx
    simp [splitOnChar] at hx
    simp [hx]
  | cons c cs ih =>
    intro x hx
    cases hsp : splitOnChar sep cs with
    | nil => exact absurd hsp (splitOnChar_ne_nil sep cs)
    | cons h t =>
      have hred : splitOnChar sep (c :: cs) =
          if c = sep then [] :: h :: t else (c :: h) :: t := by
        rw [splitOnChar_cons, hsp]
      rw [hred] at hx
      by_cases hc : c = sep
      · rw [if_pos hc] at hx
        rcases List.mem_cons.mp hx with rfl | hx
        · simp
        · exact ih x (hsp ▸ hx)
      · rw [if_neg hc] at hx
        rcases List.mem_cons.mp hx with rfl | hx
        · intro hmem
          rcases List.mem_cons.mp hmem with rfl | hmem
          · exact hc rfl
          · exact ih h (hsp ▸ List.mem_cons_self h t) hmem
        · exact ih x (hsp ▸ List.mem_cons_of_mem h hx)

lemma mem_splitOnChar_chars (sep : Char) (l : Str) :
    ∀ x ∈ splitOnChar sep l, ∀ c ∈ x, c ∈ l := by
  induction l with
  | nil =>
    intro x hx
    simp [splitOnChar] at hx
    simp [hx]
  | cons c0 cs ih =>
    intro x hx c hc
    cases hsp : splitOnChar sep cs with
    | nil => exact absurd hsp (splitOnChar_ne_nil sep cs)
    | cons h t =>
      have hred : splitOnChar sep (c0 :: cs) =
          if c0 = sep then [] :: h :: t else (c0 :: h) :: t := by
        rw [splitOnChar_cons, hsp]
      rw [hred] at hx
      by_cases hcs : c0 = sep
      · rw [if_pos hcs] at hx
        rcases List.mem_cons.mp hx with rfl | hx
        · cases hc
        · exact List.mem_cons_of_mem c0 (ih x (hsp ▸ hx) c hc)
      · rw [if_neg hcs] at hx
        rcases List.mem_cons.mp hx with rfl | hx
        · rcases List.mem_cons.mp hc with rfl | hc
          · simp
          · exact List.mem_cons_of_mem c0
              (ih h (hsp ▸ List.mem_cons_self h t) c hc)
        · exact List.mem_cons_of_mem c0
            (ih x (hsp ▸ List.mem_cons_of_mem h hx) c hc)

lemma mem_pySplitlines_no_nl (cs : Str) :
    ∀ x ∈ pySplitlines cs, '\n' ∉ x ∧ '\x0d' ∉ x := by
  intro x hx
  have hx' : x ∈ splitOnChar '\n' (translateNL cs) := by
    unfold pySplitlines at hx
    by_cases hlast : (splitOnChar '\n' (translateNL cs)).getLast? = some []
    · rw [if_pos hlast] at hx
      exact (List.dropLast_sublist _).mem hx
    · rw [if_neg hlast] at hx
      exact hx
  constructor
  · exact mem_splitOnChar_no_sep '\n' (translateNL cs) x hx'
  · intro hc
    exact translateNL_no_cr cs
      (mem_splitOnChar_chars '\n' (translateNL cs) x hx' '\x0d' hc)

